import Mathlib

/-!
Verification of the dictionary normalization service
(`backend/app/services/dictionary_service.py`).

Python `dict`s are embedded as association lists with Python-`dict`
update semantics: `upsert` replaces the value of an existing key in
place (keeping its position, as CPython dicts do) and appends a fresh
key at the end; `alookup` retrieves the unique binding.  Python's
`str.lower`, `str.strip` truthiness and single-character `in` are
embedded character-wise (`pyLower`, `isBlank`, `pyIn`).
-/

namespace DictSvc

/-- Lookup in an association list (Python `d[k]` / `d.get(k)`). -/
def alookup {κ α : Type} [DecidableEq κ] (k : κ) : List (κ × α) → Option α
  | [] => none
  | (k', v) :: rest => if k' = k then some v else alookup k rest

/-- Python `d[k] = v`: replace in place if the key exists, else append. -/
def upsert {κ α : Type} [DecidableEq κ] (k : κ) (v : α) : List (κ × α) → List (κ × α)
  | [] => [(k, v)]
  | (k', v') :: rest => if k' = k then (k, v) :: rest else (k', v') :: upsert k v rest

/-! ## Data model

`StandardEntry` keeps the two fields the service reads (`standard`,
`aliases`); the optional `category`/`location` fields are never
consulted by the code under verification. -/

/-- Python `str.lower()`, embedded character-wise (ASCII case
mapping; characters outside the basic latin range are untouched, as in
the dictionary data). -/
def pyLower (s : String) : String :=
  ⟨s.data.map Char.toLower⟩

/-- Python truthiness of `s.strip()` being falsy: the string is all
whitespace (or empty). -/
def isBlank (s : String) : Bool :=
  s.data.all Char.isWhitespace

/-- Python `c in s` for a single character. -/
def pyIn (c : Char) (s : String) : Bool :=
  s.data.contains c

structure Entry where
  std : String
  aliases : List String
deriving DecidableEq, Repr

/-- A dictionary: mapping standard name to entry (`self.companies` /
`self.universities`). -/
abbrev Dict := List (String × Entry)

/-- The alias index: lowercased alias to standard name. -/
abbrev Index := List (String × String)

/-- One iteration of the `_build_index` loop body: insert the standard
itself, then each alias, all pointing at `standard`. -/
def insertEntry (idx : Index) (standard : String) (e : Entry) : Index :=
  e.aliases.foldl (fun acc a => upsert (pyLower a) standard acc)
    (upsert (pyLower standard) standard idx)

/-- `_build_index`: alias (lowercased) to standard, last write wins. -/
def buildIndex (d : Dict) : Index :=
  d.foldl (fun acc se => insertEntry acc se.1 se.2) []

/-! ## Matcher

`rapidfuzz.process.extractOne(query, keys, scorer=fuzz.ratio,
score_cutoff=threshold)` is embedded parametrically in the scorer: a
candidate scoring below the cutoff is ignored, among the remaining
ones the highest score wins and ties keep the earliest candidate. -/

abbrev Score := String → String → Nat

def extractOne (score : Score) (q : String) (ks : List String) (cutoff : Nat) :
    Option (String × Nat) :=
  ks.foldl (fun acc k =>
    match acc with
    | none => if cutoff ≤ score q k then some (k, score q k) else none
    | some (b, s) =>
      if s < score q k ∧ cutoff ≤ score q k then some (k, score q k) else some (b, s))
    none

/-- Body of `_fuzzy_match_cached` (the pure computation under the
`lru_cache` wrapper): best index key at or above the threshold, mapped
through the index. -/
def fuzzyMatch (score : Score) (idx : Index) (q : String) (thr : Nat) :
    Option String × Nat :=
  match extractOne score q (idx.map Prod.fst) thr with
  | some (k, s) => (alookup k idx, s)
  | none => (none, 0)

/-- The `lru_cache` memo of `_fuzzy_match_cached`, keyed by
`(query, dict_type, threshold)`. -/
abbrev Memo := List ((String × String × Nat) × (Option String × Nat))

/-- Reading through the memo: a cached value is returned as is, a miss
computes `fuzzyMatch`.  (The cache insertion performed by `lru_cache`
on a miss does not affect the returned value, which is all the
read-path claims are about.) -/
def fuzzyMatchCached (memo : Memo) (score : Score) (idx : Index)
    (dtype q : String) (thr : Nat) : Option String × Nat :=
  match alookup (q, dtype, thr) memo with
  | some v => v
  | none => fuzzyMatch score idx q thr

/-- Coherence of the memo: every cached value is what recomputation
against the current index would produce.  `lru_cache` maintains this
in the running service because the cache is cleared in full whenever
the index changes and entries are only ever inserted as the result of
the computation itself. -/
def MemoOK (memo : Memo) (score : Score) (idx : Index) : Prop :=
  ∀ q dt thr v, alookup (q, dt, thr) memo = some v → v = fuzzyMatch score idx q thr

/-- `normalize_company` / `normalize_university` (they are textually
identical up to the dictionary they consult); the `dtype` string is
the memo key component (`'company'` / `'university'`). -/
def normalizeName (score : Score) (idx : Index) (memo : Memo) (dtype : String)
    (name : String) (thr : Nat) : String :=
  if name = "" then ""
  else
    let low := pyLower name
    match alookup low idx with
    | some s => s
    | none =>
      match (fuzzyMatchCached memo score idx dtype low thr).1 with
      | some s => if s = "" then name else s
      | none => name

def normalizeCompany (score : Score) (idx : Index) (memo : Memo)
    (name : String) (thr : Nat) : String :=
  normalizeName score idx memo "company" name thr

def normalizeUniversity (score : Score) (idx : Index) (memo : Memo)
    (name : String) (thr : Nat) : String :=
  normalizeName score idx memo "university" name thr

/-! ## Persistence model

The slice of the file system that `_save_dictionary` touches for one
dictionary file: the target file, its `.tmp` sibling, the `backups/`
directory (filename timestamps modelled as `Nat`; the
`%Y%m%d_%H%M%S` format is fixed-width, so the `sorted()` over backup
file names in the code orders them exactly by timestamp), and the
pickle cache file.  File contents are either a complete serialized
dictionary (`json.dump({key: data})`) or a truncated byte prefix, the
state a file is left in mid-write. -/

inductive FileData where
  | json (key : String) (d : Dict)
  | truncated (bytes : List Nat)
deriving DecidableEq, Repr

structure FSState where
  target : Option FileData
  temp : Option FileData
  backups : List (Nat × FileData)
  cacheExists : Bool
deriving DecidableEq, Repr

/-- Timestamp-ascending sort of the backup directory listing
(`sorted(backup_dir.glob(...))`). -/
def sortBackups (l : List (Nat × FileData)) : List (Nat × FileData) :=
  l.insertionSort (fun a b => a.1 ≤ b.1)

/-- `MAX_BACKUPS = 10`. -/
def MAX_BACKUPS : Nat := 10

/-- Backup pruning: when more than `MAX_BACKUPS` backups exist, the
entries of `backups[:-MAX_BACKUPS]` (the oldest) are unlinked, leaving
the most recent ten. -/
def pruneBackups (l : List (Nat × FileData)) : List (Nat × FileData) :=
  if MAX_BACKUPS < (sortBackups l).length then
    (sortBackups l).drop ((sortBackups l).length - MAX_BACKUPS)
  else l

instance : IsTotal (Nat × FileData) (fun a b => a.1 ≤ b.1) :=
  ⟨fun a b => Nat.le_total a.1 b.1⟩

instance : IsTrans (Nat × FileData) (fun a b => a.1 ≤ b.1) :=
  ⟨fun _ _ _ => Nat.le_trans⟩

/-- Step 1 of `_save_dictionary`: `shutil.copy2(file_path, backup_path)`
when the target exists (a second save in the same second overwrites
the earlier backup, hence `upsert`). -/
def mkBackupStep (now : Nat) (σ : FSState) : FSState :=
  match σ.target with
  | some c => { σ with backups := upsert now c σ.backups }
  | none => σ

/-- Step 2: pruning, performed only inside the `if file_path.exists()`
branch. -/
def pruneStep (σ0 σ : FSState) : FSState :=
  match σ0.target with
  | some _ => { σ with backups := pruneBackups σ.backups }
  | none => σ

/-- The sequence of file-system states a successful `_save_dictionary`
passes through: initial, after the backup copy, after pruning, with
the temp file partially written (`pb` is whatever byte prefix is on
disk mid-`json.dump`), with the temp file complete, after the atomic
`temp_path.replace(file_path)`, and after deleting the cache file. -/
def saveTrace (σ0 : FSState) (key : String) (d : Dict) (now : Nat)
    (pb : List Nat) : List FSState :=
  let σ1 := mkBackupStep now σ0
  let σ2 := pruneStep σ0 σ1
  let σ3 := { σ2 with temp := some (.truncated pb) }
  let σ4 := { σ2 with temp := some (.json key d) }
  let σ5 := { σ4 with temp := none, target := some (.json key d) }
  let σ6 := { σ5 with cacheExists := false }
  [σ0, σ1, σ2, σ3, σ4, σ5, σ6]

/-- Final state of a successful `_save_dictionary`. -/
def saveDict (σ0 : FSState) (key : String) (d : Dict) (now : Nat) : FSState :=
  let σ2 := pruneStep σ0 (mkBackupStep now σ0)
  { σ2 with temp := none, target := some (.json key d), cacheExists := false }

/-- The point at which the `try` body of `_save_dictionary` raises. -/
inductive FailStep where
  | writeTemp
  | rename
  | clearCache
deriving DecidableEq, Repr

/-- File-system state left behind when `_save_dictionary` fails at
`fp` and its `except` handler runs: the backup (made in step 1, if the
target existed, and still present unless pruned away) is copied back
over the target, and the exception propagates. -/
def saveDictFail (σ0 : FSState) (key : String) (d : Dict) (now : Nat)
    (pb : List Nat) (fp : FailStep) : FSState :=
  let σ2 := pruneStep σ0 (mkBackupStep now σ0)
  let σf :=
    match fp with
    | .writeTemp => { σ2 with temp := some (.truncated pb) }
    | .rename => { σ2 with temp := some (.json key d) }
    | .clearCache => { σ2 with temp := none, target := some (.json key d) }
  match σ0.target with
  | none => σf
  | some _ =>
    match alookup now σf.backups with
    | some b => { σf with target := some b }
    | none => σf

/-! ## Mutation manager

One half of the service (the company side; `add_university_mapping` /
`update_universities` are textually identical up to field and file
names).  A mutation runs entirely under `self._lock`, so its
read-modify-write sequence is embedded as one pure function. -/

structure SState where
  companies : Dict
  index : Index
  memo : Memo
  fs : FSState
deriving DecidableEq, Repr

/-- In-memory effect of `add_company_mapping`: seed a new entry with
`[standard]` when the standard is new, append the alias unless already
present (case-sensitive `in` check), and point `alias.lower()` at the
standard in the index. -/
def addMappingMem (d : Dict) (idx : Index) (aName standard : String) :
    Dict × Index :=
  let d1 :=
    match alookup standard d with
    | some _ => d
    | none => upsert standard ⟨standard, [standard]⟩ d
  let e := (alookup standard d1).getD ⟨standard, [standard]⟩
  let d2 :=
    if aName ∈ e.aliases then d1
    else upsert standard ⟨e.std, e.aliases ++ [aName]⟩ d1
  (d2, upsert (pyLower aName) standard idx)

/-- `add_company_mapping` when `_save_dictionary` succeeds: mutate,
persist, clear the fuzzy-match memo. -/
def addCompanyMappingOk (st : SState) (aName standard : String) (now : Nat) :
    SState :=
  let (d2, idx2) := addMappingMem st.companies st.index aName standard
  { companies := d2, index := idx2, memo := [],
    fs := saveDict st.fs "companies" d2 now }

/-- `add_company_mapping` when `_save_dictionary` raises at `fp`: the
exception propagates, so `cache_clear()` is never reached and the
in-memory mutation is kept. -/
def addCompanyMappingFail (st : SState) (aName standard : String) (now : Nat)
    (pb : List Nat) (fp : FailStep) : SState :=
  let (d2, idx2) := addMappingMem st.companies st.index aName standard
  { companies := d2, index := idx2, memo := st.memo,
    fs := saveDictFail st.fs "companies" d2 now pb fp }

/-- `add_company_mapping`, with the persistence outcome injected as a
parameter (`none` = the save succeeds). -/
def addCompanyMapping (st : SState) (aName standard : String) (now : Nat)
    (pb : List Nat) (fail : Option FailStep) : Except SState SState :=
  match fail with
  | none => .ok (addCompanyMappingOk st aName standard now)
  | some fp => .error (addCompanyMappingFail st aName standard now pb fp)

/-- `update_companies` (the spec's `replaceDictionary`) on a
successful save: swap the dictionary, rebuild the index, persist,
clear the memo. -/
def updateCompaniesOk (st : SState) (newD : Dict) (now : Nat) : SState :=
  { companies := newD, index := buildIndex newD, memo := [],
    fs := saveDict st.fs "companies" newD now }

/-- `update_companies` when `_save_dictionary` raises at `fp`: the
dictionary and index were already replaced before the save, the
exception propagates before `cache_clear()`, so the replacement stays
in memory and the memo is untouched. -/
def updateCompaniesFail (st : SState) (newD : Dict) (now : Nat)
    (pb : List Nat) (fp : FailStep) : SState :=
  { companies := newD, index := buildIndex newD, memo := st.memo,
    fs := saveDictFail st.fs "companies" newD now pb fp }

/-- `update_companies`, with the persistence outcome injected as a
parameter (`none` = the save succeeds). -/
def updateCompanies (st : SState) (newD : Dict) (now : Nat)
    (pb : List Nat) (fail : Option FailStep) : Except SState SState :=
  match fail with
  | none => .ok (updateCompaniesOk st newD now)
  | some fp => .error (updateCompaniesFail st newD now pb fp)

/-- Outcomes of `rollback_to_backup`. -/
inductive RollbackErr where
  | notFound
  | loadFailed
deriving DecidableEq, Repr

/-- `rollback_to_backup(filename="companies.json", ts)`: missing
backup is `FileNotFoundError`; otherwise the backup is copied over the
live file and the dictionary reloaded from it via `_load_dictionary`
(a truncated backup makes that reload raise, after the file was
already overwritten). -/
def rollbackToBackup (st : SState) (ts : Nat) : Except RollbackErr SState :=
  match alookup ts st.fs.backups with
  | none => .error .notFound
  | some c =>
    let fs1 := { st.fs with target := some c }
    match c with
    | .json k d =>
      let loaded := if k = "companies" then d else []
      .ok { companies := loaded, index := buildIndex loaded, memo := [],
            fs := fs1 }
    | .truncated _ => .error .loadFailed

/-! ## Search -/

/-- Python `needle in hay` on strings (substring containment). -/
def strContains (hay needle : String) : Bool :=
  decide (needle.toList <:+: hay.toList)

/-- Inner loop of `search_companies`: scan an entry's aliases,
appending the entry (as the `{"standard": standard, **info}` record,
modelled by the `(standard, info)` pair) once per matching alias,
stopping as soon as the accumulated results reach `limit`. -/
def searchAliasLoop (ql s : String) (e : Entry) (limit : Nat) :
    List String → List (String × Entry) → List (String × Entry)
  | [], res => res
  | a :: rest, res =>
    if strContains (pyLower a) ql then
      let res' := res ++ [(s, e)]
      if limit ≤ res'.length then res'
      else searchAliasLoop ql s e limit rest res'
    else searchAliasLoop ql s e limit rest res

/-- Outer loop of `search_companies`: a standard-name substring hit
appends the entry once and skips its aliases; otherwise the aliases
are scanned. -/
def searchLoop (ql : String) (limit : Nat) :
    Dict → List (String × Entry) → List (String × Entry)
  | [], res => res
  | (s, e) :: rest, res =>
    if strContains (pyLower s) ql then
      let res' := res ++ [(s, e)]
      if limit ≤ res'.length then res'
      else searchLoop ql limit rest res'
    else
      let res' := searchAliasLoop ql s e limit e.aliases res
      if limit ≤ res'.length then res'
      else searchLoop ql limit rest res'

/-- `search_companies(query, limit)` (and, identically,
`search_universities`). -/
def searchCompanies (d : Dict) (q : String) (limit : Nat) :
    List (String × Entry) :=
  searchLoop (pyLower q) limit d []

/-! ## Validator -/

/-- A finding, keeping the data interpolated into the reported message
(`kind` is the `公司`/`院校` prefix, rendered `"company"` /
`"university"`). -/
inductive Finding where
  | emptyStd (kind : String)
  | emptyAliases (kind standard : String)
  | dupAlias (kind a prevOwner curOwner : String)
  | suspicious (kind standard : String)
deriving DecidableEq, Repr

structure Issues where
  empty_standard : List Finding
  empty_aliases : List Finding
  duplicate_aliases : List Finding
  suspicious_standard : List Finding
deriving DecidableEq, Repr

def issuesInit : Issues := ⟨[], [], [], []⟩

/-- The suspicious-character test `any(c in standard for c in
['/', '\\', '|', '<', '>'])`. -/
def suspiciousStd (s : String) : Bool :=
  pyIn '/' s || pyIn '\\' s || pyIn '|' s || pyIn '<' s || pyIn '>' s

/-- The `if not standard.strip()` check of `validate_dictionary`. -/
def blankCheck (kind : String) (iss : Issues) (s : String) : Issues :=
  if isBlank s then
    { iss with empty_standard := iss.empty_standard ++ [.emptyStd kind] }
  else iss

/-- The `if not aliases` check. -/
def aliasCheck (kind : String) (iss : Issues) (s : String) (e : Entry) :
    Issues :=
  if e.aliases = [] then
    { iss with empty_aliases := iss.empty_aliases ++ [.emptyAliases kind s] }
  else iss

/-- The suspicious-character check. -/
def suspCheck (kind : String) (iss : Issues) (s : String) : Issues :=
  if suspiciousStd s then
    { iss with suspicious_standard :=
        iss.suspicious_standard ++ [.suspicious kind s] }
  else iss

/-- The body of the per-alias duplicate loop: report a duplicate when
the lowercased alias is already in `seen_aliases` (against the owner
recorded there), then record the current standard as the alias's
owner. -/
def dupStep (kind s : String) (p : Issues × List (String × String))
    (a : String) : Issues × List (String × String) :=
  let al := pyLower a
  let iss' :=
    match alookup al p.2 with
    | some prev =>
      { p.1 with duplicate_aliases :=
          p.1.duplicate_aliases ++ [.dupAlias kind a prev s] }
    | none => p.1
  (iss', upsert al s p.2)

/-- One iteration of the per-standard loop of `validate_dictionary`:
blank-standard check, empty-alias check, duplicate scan against the
running `seen_aliases` map (which is updated on every occurrence),
suspicious-character check. -/
def scanEntry (kind : String) (iss : Issues) (seen : List (String × String))
    (s : String) (e : Entry) : Issues × List (String × String) :=
  let p := e.aliases.foldl (dupStep kind s)
    (aliasCheck kind (blankCheck kind iss s) s e, seen)
  (suspCheck kind p.1 s, p.2)

/-- Scan of one dictionary with a fresh `seen_aliases = {}` map. -/
def scanDict (kind : String) (iss0 : Issues) (d : Dict) : Issues :=
  (d.foldl (fun p se => scanEntry kind p.1 p.2 se.1 se.2) (iss0, [])).1

/-- `validate_dictionary()`: scan companies, then universities (with
the seen map reset in between), and keep only non-empty categories. -/
def validateDictionary (companies universities : Dict) :
    List (String × List Finding) :=
  let iss := scanDict "university" (scanDict "company" issuesInit companies)
    universities
  ([("empty_standard", iss.empty_standard),
    ("empty_aliases", iss.empty_aliases),
    ("duplicate_aliases", iss.duplicate_aliases),
    ("suspicious_standard", iss.suspicious_standard)]).filter
    (fun kv => !kv.2.isEmpty)

/-! ## Loader

`_load_dictionary(filename, key)` distinguishes only whether the
parsed JSON value supports `.get` (is an object) and whether the value
found under `key` is an object, so JSON values are embedded as objects
plus an opaque non-object constructor.  The entries under the key are
returned unvalidated, exactly as the code does. -/

inductive JVal where
  | jobj (fields : List (String × JVal))
  | jother

/-- The three states a dictionary source file can be in. -/
inductive SourceFile where
  | absent
  | malformed
  | parsed (v : JVal)

inductive LoadErr where
  | jsonDecodeError
  | attributeError
  | valueError
deriving DecidableEq, Repr

/-- Python `data.get(key, {})`. -/
def pyGet (fields : List (String × JVal)) (k : String) (dflt : JVal) : JVal :=
  match alookup k fields with
  | some v => v
  | none => dflt

/-- `_load_dictionary`: a missing file yields an empty dictionary; a
JSON syntax error re-raises `json.JSONDecodeError`; a non-object top
level raises (`.get` is missing) inside the generic handler, which
re-raises; a non-object value under `key` fails the `isinstance`
check and raises `ValueError`; otherwise the object under `key` (or
`{}` when the key is absent) is returned. -/
def loadDictionary (file : SourceFile) (key : String) :
    Except LoadErr (List (String × JVal)) :=
  match file with
  | .absent => .ok []
  | .malformed => .error .jsonDecodeError
  | .parsed .jother => .error .attributeError
  | .parsed (.jobj fields) =>
    match pyGet fields key (.jobj []) with
    | .jobj result => .ok result
    | .jother => .error .valueError

/-! ## Characterization predicates used by the theorems -/

/-- Invariant: every value stored in the alias index is a standard
name currently present as a key of the corresponding dictionary. -/
def IndexOK (d : Dict) (idx : Index) : Prop :=
  ∀ p ∈ idx, (alookup p.2 d).isSome

/-- The (standard, alias) occurrences of a dictionary, in the order
the validator's nested loops visit them. -/
def occList (d : Dict) : List (String × String) :=
  (d.map (fun se => se.2.aliases.map (fun a => (se.1, a)))).flatten

/-- The owner of the most recent occurrence in the given prefix
(scanning from its end) of an alias equal to `key`
case-insensitively. -/
def lastClaimant (key : String) : List (String × String) → Option String
  | [] => none
  | (s, a) :: rest =>
    match lastClaimant key rest with
    | some r => some r
    | none => if pyLower a = key then some s else none

/-- Duplicate-alias findings characterized globally over the
occurrence list: an occurrence whose lowercased alias already occurred
in the prefix before it yields one finding, attributed to the most
recent previous claimant of that alias. -/
def dupSpec (kind : String) :
    List (String × String) → List (String × String) → List Finding
  | _, [] => []
  | pre, (s, a) :: rest =>
    (match lastClaimant (pyLower a) pre with
     | some prev => [.dupAlias kind a prev s]
     | none => []) ++ dupSpec kind (pre ++ [(s, a)]) rest

/-- The full (untruncated) hit list of `search_companies`: one hit for
an entry whose standard matches, else one hit per matching alias. -/
def searchMatches (ql : String) (d : Dict) : List (String × Entry) :=
  (d.map (fun se =>
    if strContains (pyLower se.1) ql then [se]
    else (se.2.aliases.filter (fun a => strContains (pyLower a) ql)).map
      (fun _ => se))).flatten

/-! ## Concrete sample data used in closed statements -/

/-- A degenerate scorer (never reaches any threshold), used where a
concrete instance of the abstract `fuzz.ratio` parameter is needed. -/
def zscore : Score := fun _ _ => 0

/-- An empty file-system state (fresh dictionary directory). -/
def fs0 : FSState := ⟨none, none, [], false⟩

/-! ## Association-list lemmas -/

theorem alookup_upsert_self {κ α : Type} [DecidableEq κ] (k : κ) (v : α)
    (l : List (κ × α)) : alookup k (upsert k v l) = some v := by
  induction l with
  | nil => simp [alookup, upsert]
  | cons p rest ih =>
    obtain ⟨k', v'⟩ := p
    by_cases h : k' = k
    · simp [alookup, upsert, h]
    · simp [alookup, upsert, h, ih]

theorem alookup_upsert_ne {κ α : Type} [DecidableEq κ] {k k' : κ} (v : α)
    (l : List (κ × α)) (h : k' ≠ k) :
    alookup k' (upsert k v l) = alookup k' l := by
  induction l with
  | nil => simp [alookup, upsert, Ne.symm h]
  | cons p rest ih =>
    obtain ⟨k₀, v₀⟩ := p
    by_cases h0 : k₀ = k
    · subst h0
      simp [alookup, upsert, Ne.symm h]
    · simp only [upsert, if_neg h0, alookup]
      by_cases h1 : k₀ = k'
      · simp [h1]
      · simp [h1, ih]

theorem mem_upsert {κ α : Type} [DecidableEq κ] {k : κ} {v : α}
    {l : List (κ × α)} {p : κ × α} (hp : p ∈ upsert k v l) :
    p = (k, v) ∨ p ∈ l := by
  induction l with
  | nil => simpa [upsert] using hp
  | cons q rest ih =>
    obtain ⟨k₀, v₀⟩ := q
    by_cases h0 : k₀ = k
    · simp only [upsert, if_pos h0, List.mem_cons] at hp
      rcases hp with h | h
      · exact Or.inl h
      · exact Or.inr (List.mem_cons_of_mem _ h)
    · simp only [upsert, if_neg h0, List.mem_cons] at hp
      rcases hp with h | h
      · exact Or.inr (by simp [h])
      · rcases ih h with h' | h'
        · exact Or.inl h'
        · exact Or.inr (List.mem_cons_of_mem _ h')

theorem alookup_isSome_of_mem_keys {κ α : Type} [DecidableEq κ] {k : κ}
    {l : List (κ × α)} (h : k ∈ l.map Prod.fst) : (alookup k l).isSome := by
  induction l with
  | nil => simp at h
  | cons p rest ih =>
    obtain ⟨k₀, v₀⟩ := p
    by_cases h0 : k₀ = k
    · simp [alookup, h0]
    · simp only [List.map_cons, List.mem_cons] at h
      rcases h with h | h

      · exact absurd h.symm h0
      · simp [alookup, h0, ih h]

theorem alookup_isSome_upsert {κ α : Type} [DecidableEq κ] {k k' : κ} (v : α)
    {l : List (κ × α)} (h : (alookup k' l).isSome) :
    (alookup k' (upsert k v l)).isSome := by
  by_cases he : k' = k
  · subst he
    simp [alookup_upsert_self]
  · rwa [alookup_upsert_ne v l he]

theorem upsert_eq_append {κ α : Type} [DecidableEq κ] (k : κ) (v : α)
    (l : List (κ × α)) (h : ∀ p ∈ l, p.1 ≠ k) :
    upsert k v l = l ++ [(k, v)] := by
  induction l with
  | nil => simp [upsert]
  | cons p rest ih =>
    obtain ⟨k₀, v₀⟩ := p
    have hk : k₀ ≠ k := h (k₀, v₀) (by simp)
    simp only [upsert, if_neg hk, List.cons_append, List.cons.injEq, true_and]
    exact ih fun q hq => h q (List.mem_cons_of_mem _ hq)

theorem alookup_of_mem_unique {κ α : Type} [DecidableEq κ] {k : κ} {c : α}
    {l : List (κ × α)} (hmem : (k, c) ∈ l) (huniq : ∀ v, (k, v) ∈ l → v = c) :
    alookup k l = some c := by
  induction l with
  | nil => simp at hmem
  | cons p rest ih =>
    obtain ⟨k₀, v₀⟩ := p
    by_cases h0 : k₀ = k
    · subst h0
      have : v₀ = c := huniq v₀ (by simp)
      simp [alookup, this]
    · simp only [alookup, if_neg h0]
      rcases List.mem_cons.mp hmem with h | h
      · exact absurd (congrArg Prod.fst h).symm h0
      · exact ih h fun v hv => huniq v (List.mem_cons_of_mem _ hv)

/-! ## Matcher lemmas -/

theorem memoOK_nil (score : Score) (idx : Index) : MemoOK [] score idx :=
  fun _ _ _ _ h => Option.noConfusion h

theorem extractOne_none (score : Score) (q : String) (ks : List String)
    (cutoff : Nat) (h : ∀ k ∈ ks, score q k < cutoff) :
    extractOne score q ks cutoff = none := by
  induction ks with
  | nil => rfl
  | cons k rest ih =>
    have hk : ¬ cutoff ≤ score q k :=
      Nat.not_le_of_lt (h k (List.mem_cons_self k rest))
    have step : extractOne score q (k :: rest) cutoff =
        extractOne score q rest cutoff := by
      simp [extractOne, hk]
    rw [step]
    exact ih fun x hx => h x (List.mem_cons_of_mem _ hx)

theorem normalizeName_empty (score : Score) (idx : Index) (memo : Memo)
    (dtype : String) (thr : Nat) :
    normalizeName score idx memo dtype "" thr = "" := by
  simp [normalizeName]

theorem normalizeName_exact (score : Score) (idx : Index) (memo : Memo)
    (dtype name s : String) (thr : Nat) (hname : name ≠ "")
    (hhit : alookup (pyLower name) idx = some s) :
    normalizeName score idx memo dtype name thr = s := by
  simp [normalizeName, hname, hhit]

theorem normalizeName_passthrough (score : Score) (idx : Index) (memo : Memo)
    (dtype name : String) (thr : Nat)
    (hmemo : MemoOK memo score idx)
    (hname : name ≠ "")
    (hexact : alookup (pyLower name) idx = none)
    (hfuzzy : ∀ k ∈ idx.map Prod.fst, score (pyLower name) k < thr) :
    normalizeName score idx memo dtype name thr = name := by
  have hfm : fuzzyMatch score idx (pyLower name) thr = (none, 0) := by
    unfold fuzzyMatch
    rw [extractOne_none _ _ _ _ hfuzzy]
  have hfc : fuzzyMatchCached memo score idx dtype (pyLower name) thr =
      (none, 0) := by
    unfold fuzzyMatchCached
    cases hm : alookup (pyLower name, dtype, thr) memo with
    | none => exact hfm
    | some v => rw [hmemo _ _ _ _ hm]; exact hfm
  simp [normalizeName, hname, hexact, hfc]

/-- C2: `normalize_company` and `normalize_university` are total; they
return the empty string on empty input, and on non-empty input with no
exact index hit and every index key scoring below the threshold they
return the input unchanged (hence non-empty). -/
theorem C2_normalize_total_passthrough (score : Score) (idx : Index)
    (memo : Memo) (name : String) (thr : Nat)
    (hmemo : MemoOK memo score idx) :
    normalizeCompany score idx memo "" thr = "" ∧
    normalizeUniversity score idx memo "" thr = "" ∧
    (name ≠ "" → alookup (pyLower name) idx = none →
      (∀ k ∈ idx.map Prod.fst, score (pyLower name) k < thr) →
      normalizeCompany score idx memo name thr = name ∧
      normalizeUniversity score idx memo name thr = name) := by
  refine ⟨normalizeName_empty _ _ _ _ _, normalizeName_empty _ _ _ _ _, ?_⟩
  intro hname hexact hfuzzy
  exact ⟨normalizeName_passthrough _ _ _ _ _ _ hmemo hname hexact hfuzzy,
    normalizeName_passthrough _ _ _ _ _ _ hmemo hname hexact hfuzzy⟩

theorem C2_witness :
    normalizeCompany zscore [("alpha", "Alpha")] [] "Beta" 80 = "Beta" ∧
    normalizeUniversity zscore [("alpha", "Alpha")] [] "Beta" 80 = "Beta" :=
  (C2_normalize_total_passthrough zscore [("alpha", "Alpha")] [] "Beta" 80
    (memoOK_nil _ _)).2.2 (by decide) (by decide) (by decide)

/-! ## Loader theorems (C5) -/

/-- C5 counterexample: a file that exists, parses, and has a top-level
object that lacks the expected key (so it is not "a single top-level
object keyed by the expected key") is NOT a load error: it silently
yields an empty dictionary, contradicting the claimed
no-silent-fallback behavior. -/
theorem C5_counterexample :
    loadDictionary (.parsed (.jobj [("other", .jobj [])])) "companies" =
      .ok [] ∧
    alookup "companies" [("other", JVal.jobj [])] = none :=
  ⟨rfl, rfl⟩

/-- C5 as amended: an absent file yields an empty dictionary with no
error; malformed JSON, a non-object top level, and a non-object value
under the expected key are all load errors; but a top-level object
missing the expected key silently yields an empty dictionary. -/
theorem C5_load_behavior (key : String) :
    loadDictionary .absent key = .ok [] ∧
    loadDictionary .malformed key = .error .jsonDecodeError ∧
    loadDictionary (.parsed .jother) key = .error .attributeError ∧
    (∀ fields r, alookup key fields = some (.jobj r) →
      loadDictionary (.parsed (.jobj fields)) key = .ok r) ∧
    (∀ fields, alookup key fields = some .jother →
      loadDictionary (.parsed (.jobj fields)) key = .error .valueError) ∧
    (∀ fields, alookup key fields = none →
      loadDictionary (.parsed (.jobj fields)) key = .ok []) := by
  refine ⟨rfl, rfl, rfl, ?_, ?_, ?_⟩
  · intro fields r h
    simp [loadDictionary, pyGet, h]
  · intro fields h
    simp [loadDictionary, pyGet, h]
  · intro fields h
    simp [loadDictionary, pyGet, h]

theorem C5_witness :
    loadDictionary
      (.parsed (.jobj [("companies", .jobj [("X", .jother)])])) "companies" =
      .ok [("X", JVal.jother)] :=
  (C5_load_behavior "companies").2.2.2.1
    [("companies", .jobj [("X", .jother)])] [("X", JVal.jother)] rfl

/-! ## Mutation theorems (C7) -/

/-- C7: `add_company_mapping` seeds a new standard with `[standard]`
as its alias list, appends the alias exactly when it is not already
present under case-sensitive equality, updates the index with the
single key `alias.lower()` mapped to the standard, persists the new
dictionary, and clears the fuzzy-match memo in full. -/
theorem C7_addMapping_effect (st : SState) (aName standard : String)
    (now : Nat) :
    (alookup standard (addCompanyMappingOk st aName standard now).companies
        |>.map Entry.aliases) =
      some (match alookup standard st.companies with
        | some e => if aName ∈ e.aliases then e.aliases
                    else e.aliases ++ [aName]
        | none => if aName = standard then [standard]
                  else [standard, aName]) ∧
    (addCompanyMappingOk st aName standard now).index =
      upsert (pyLower aName) standard st.index ∧
    (addCompanyMappingOk st aName standard now).fs.target =
      some (.json "companies"
        (addCompanyMappingOk st aName standard now).companies) ∧
    (addCompanyMappingOk st aName standard now).memo = [] := by
  refine ⟨?_, rfl, rfl, rfl⟩
  unfold addCompanyMappingOk addMappingMem
  cases h : alookup standard st.companies with
  | some e =>
    by_cases hmem : aName ∈ e.aliases
    · simp [h, hmem]
    · simp [h, hmem, alookup_upsert_self]
  | none =>
    have hseed : alookup standard
        (upsert standard (⟨standard, [standard]⟩ : Entry) st.companies) =
        some ⟨standard, [standard]⟩ := alookup_upsert_self _ _ _
    by_cases hmem : aName = standard
    · simp [h, hseed, hmem, alookup_upsert_self]
    · have : aName ∉ [standard] := by simp [hmem]
      simp [h, hseed, this, hmem, alookup_upsert_self]

/-! ## Index-construction lemmas and C3 -/

theorem alookup_foldl_alias_const (s k : String) (as : List String)
    (acc : Index) (h : alookup k acc = some s) :
    alookup k (as.foldl (fun acc a => upsert (pyLower a) s acc) acc) = some s := by
  induction as generalizing acc with
  | nil => exact h
  | cons a rest ih =>
    simp only [List.foldl_cons]
    apply ih
    by_cases ha : pyLower a = k
    · rw [ha]
      exact alookup_upsert_self _ _ _
    · rw [alookup_upsert_ne _ _ fun hk => ha hk.symm]
      exact h

theorem alookup_foldl_alias_ne (s k : String) (as : List String) (acc : Index)
    (h : ∀ a ∈ as, pyLower a ≠ k) :
    alookup k (as.foldl (fun acc a => upsert (pyLower a) s acc) acc) =
      alookup k acc := by
  induction as generalizing acc with
  | nil => rfl
  | cons a rest ih =>
    simp only [List.foldl_cons]
    rw [ih _ fun x hx => h x (List.mem_cons_of_mem _ hx),
      alookup_upsert_ne _ _ fun hk => h a (List.mem_cons_self _ _) hk.symm]

theorem alookup_insertEntry_self (idx : Index) (s : String) (e : Entry) :
    alookup (pyLower s) (insertEntry idx s e) = some s :=
  alookup_foldl_alias_const s (pyLower s) e.aliases _ (alookup_upsert_self _ _ _)

theorem alookup_insertEntry_ne (idx : Index) (s' : String) (e' : Entry)
    (k : String) (h1 : pyLower s' ≠ k) (h2 : ∀ a ∈ e'.aliases, pyLower a ≠ k) :
    alookup k (insertEntry idx s' e') = alookup k idx := by
  unfold insertEntry
  rw [alookup_foldl_alias_ne _ _ _ _ h2, alookup_upsert_ne _ _ fun hk => h1 hk.symm]

theorem alookup_foldl_entries_preserved (k s : String) (post : Dict)
    (acc : Index) (hacc : alookup k acc = some s)
    (hpost : ∀ p ∈ post, pyLower p.1 ≠ k ∧ ∀ a ∈ p.2.aliases, pyLower a ≠ k) :
    alookup k (post.foldl (fun acc se => insertEntry acc se.1 se.2) acc) =
      some s := by
  induction post generalizing acc with
  | nil => exact hacc
  | cons p rest ih =>
    simp only [List.foldl_cons]
    apply ih
    · rw [alookup_insertEntry_ne _ _ _ _ (hpost p (List.mem_cons_self _ _)).1
        (hpost p (List.mem_cons_self _ _)).2]
      exact hacc
    · intro q hq
      exact hpost q (List.mem_cons_of_mem _ hq)

/-- C3 counterexample: `"A"` is a standard (a key) of the dictionary,
yet `normalize("A")` returns `"B"`: the later entry's alias `"A"`
overwrote the index key `"a"` under the last-write-wins policy, so
the index does not map `"a"` to `"A"`. -/
theorem C3_counterexample :
    ("A", (⟨"A", []⟩ : Entry)) ∈
      ([("A", ⟨"A", []⟩), ("B", ⟨"B", ["A"]⟩)] : Dict) ∧
    normalizeCompany zscore
      (buildIndex [("A", ⟨"A", []⟩), ("B", ⟨"B", ["A"]⟩)]) [] "A" 80 = "B" ∧
    ("B" : String) ≠ "A" := by
  decide

/-- C3 as amended: for a standard `s` of the dictionary such that no
entry later in iteration order writes `s.lower()` into the index (no
later entry has a standard or an alias equal to `s`
case-insensitively), `normalize(s)` returns `s`; in general the
documented last-write-wins policy can redirect `s.lower()` to a later
entry's standard. -/
theorem C3_normalize_standard_no_later_collision (pre post : Dict)
    (s : String) (e : Entry)
    (hpost : ∀ p ∈ post,
      pyLower p.1 ≠ pyLower s ∧ ∀ a ∈ p.2.aliases, pyLower a ≠ pyLower s)
    (score : Score) (memo : Memo) (thr : Nat) :
    normalizeCompany score (buildIndex (pre ++ (s, e) :: post)) memo s thr = s := by
  by_cases hs : s = ""
  · subst hs
    exact normalizeName_empty _ _ _ _ _
  · apply normalizeName_exact _ _ _ _ _ _ _ hs
    unfold buildIndex
    rw [List.foldl_append]
    simp only [List.foldl_cons]
    exact alookup_foldl_entries_preserved _ _ post _
      (alookup_insertEntry_self _ _ _) hpost

theorem C3_witness :
    normalizeCompany zscore
      (buildIndex ([("X", ⟨"X", []⟩)] ++
        ("Test", ⟨"Test", ["T"]⟩) :: [("Y", ⟨"Y", ["Z"]⟩)])) [] "Test" 80 =
      "Test" :=
  C3_normalize_standard_no_later_collision [("X", ⟨"X", []⟩)]
    [("Y", ⟨"Y", ["Z"]⟩)] "Test" ⟨"Test", ["T"]⟩ (by decide) zscore [] 80

/-! ## C6: normalize after addMapping -/

/-- C6 counterexample: `"google"` is not a key of the dictionary, so
`addMapping("G", "google")` creates it as a new standard; but
`add_company_mapping` only inserts `alias.lower()` into the index, and
the pre-existing index entry `"google" -> "Alphabet"` is untouched, so
after the call `normalize("google")` returns `"Alphabet"`, not the new
standard `"google"`. -/
theorem C6_counterexample :
    alookup "google" ([("Alphabet", ⟨"Alphabet", ["google"]⟩)] : Dict) =
      none ∧
    normalizeCompany zscore
      (addCompanyMappingOk
        ⟨[("Alphabet", ⟨"Alphabet", ["google"]⟩)],
          buildIndex [("Alphabet", ⟨"Alphabet", ["google"]⟩)], [], fs0⟩
        "G" "google" 0).index
      (addCompanyMappingOk
        ⟨[("Alphabet", ⟨"Alphabet", ["google"]⟩)],
          buildIndex [("Alphabet", ⟨"Alphabet", ["google"]⟩)], [], fs0⟩
        "G" "google" 0).memo
      "google" 80 = "Alphabet" ∧
    ("Alphabet" : String) ≠ "google" := by
  decide

/-- C6 as amended: after `addMapping(alias, standard)` for a standard
that is not yet a key, `normalize(alias)` returns the standard
provided the alias is non-empty; and `normalize(standard)` returns the
standard provided additionally that either standard and alias agree
case-insensitively, or `standard.lower()` was absent from the prior
index and no index key reaches the fuzzy threshold (the pass-through
then returns the standard itself). -/
theorem C6_addMapping_normalize (st : SState) (aName standard : String)
    (now : Nat) (score : Score) (thr : Nat)
    (hnew : alookup standard st.companies = none)
    (ha : aName ≠ "") :
    normalizeCompany score (addCompanyMappingOk st aName standard now).index
      (addCompanyMappingOk st aName standard now).memo aName thr = standard ∧
    ((pyLower standard = pyLower aName ∨
      (alookup (pyLower standard) st.index = none ∧
        ∀ k ∈ (upsert (pyLower aName) standard st.index).map Prod.fst,
          score (pyLower standard) k < thr)) →
      normalizeCompany score (addCompanyMappingOk st aName standard now).index
        (addCompanyMappingOk st aName standard now).memo standard thr =
        standard) := by
  have hidx : (addCompanyMappingOk st aName standard now).index =
      upsert (pyLower aName) standard st.index := rfl
  have hmm : (addCompanyMappingOk st aName standard now).memo = [] := rfl
  rw [hidx, hmm]
  constructor
  · exact normalizeName_exact _ _ _ _ _ _ _ ha (alookup_upsert_self _ _ _)
  · intro hcase
    by_cases hs : standard = ""
    · subst hs
      exact normalizeName_empty _ _ _ _ _
    · by_cases heq : pyLower standard = pyLower aName
      · apply normalizeName_exact _ _ _ _ _ _ _ hs
        rw [heq]
        exact alookup_upsert_self _ _ _
      · rcases hcase with h | ⟨hnone, hscore⟩
        · exact absurd h heq
        · apply normalizeName_passthrough _ _ _ _ _ _ (memoOK_nil _ _) hs _ hscore
          rw [alookup_upsert_ne _ _ heq]
          exact hnone

theorem C6_witness :
    normalizeCompany zscore
      (addCompanyMappingOk ⟨[], [], [], fs0⟩ "G" "Google" 0).index
      (addCompanyMappingOk ⟨[], [], [], fs0⟩ "G" "Google" 0).memo
      "G" 80 = "Google" ∧
    normalizeCompany zscore
      (addCompanyMappingOk ⟨[], [], [], fs0⟩ "G" "Google" 0).index
      (addCompanyMappingOk ⟨[], [], [], fs0⟩ "G" "Google" 0).memo
      "Google" 80 = "Google" :=
  ⟨(C6_addMapping_normalize ⟨[], [], [], fs0⟩ "G" "Google" 0 zscore 80 rfl
      (by decide)).1,
   (C6_addMapping_normalize ⟨[], [], [], fs0⟩ "G" "Google" 0 zscore 80 rfl
      (by decide)).2 (by decide)⟩

/-! ## C9: the alias-index invariant -/

theorem mem_foldl_alias_const {p : String × String} (s : String)
    (as : List String) (acc : Index)
    (hp : p ∈ as.foldl (fun acc a => upsert (pyLower a) s acc) acc) :
    p.2 = s ∨ p ∈ acc := by
  induction as generalizing acc with
  | nil => exact Or.inr hp
  | cons a rest ih =>
    simp only [List.foldl_cons] at hp
    rcases ih _ hp with h | h
    · exact Or.inl h
    · rcases mem_upsert h with h' | h'
      · exact Or.inl (congrArg Prod.snd h')
      · exact Or.inr h'

theorem mem_insertEntry {p : String × String} (idx : Index) (s : String)
    (e : Entry) (hp : p ∈ insertEntry idx s e) : p.2 = s ∨ p ∈ idx := by
  rcases mem_foldl_alias_const s e.aliases _ hp with h | h
  · exact Or.inl h
  · rcases mem_upsert h with h' | h'
    · exact Or.inl (congrArg Prod.snd h')
    · exact Or.inr h'

theorem mem_buildIndex_aux {p : String × String} (l : Dict) (acc : Index)
    (hp : p ∈ l.foldl (fun acc se => insertEntry acc se.1 se.2) acc) :
    p ∈ acc ∨ p.2 ∈ l.map Prod.fst := by
  induction l generalizing acc with
  | nil => exact Or.inl hp
  | cons se rest ih =>
    simp only [List.foldl_cons] at hp
    rcases ih _ hp with h | h
    · rcases mem_insertEntry _ _ _ h with h' | h'
      · exact Or.inr (by simp [h'])
      · exact Or.inl h'
    · exact Or.inr (by simp [h])

theorem buildIndex_indexOK (d : Dict) : IndexOK d (buildIndex d) := by
  intro p hp
  rcases mem_buildIndex_aux d [] hp with h | h
  · exact absurd h (List.not_mem_nil p)
  · exact alookup_isSome_of_mem_keys h

theorem addMappingMem_lookup_isSome (d : Dict) (idx : Index)
    (aName standard : String) :
    (alookup standard (addMappingMem d idx aName standard).1).isSome := by
  unfold addMappingMem
  cases h : alookup standard d with
  | some e =>
    by_cases hmem : aName ∈ e.aliases
    · simp [h, hmem]
    · simp [h, hmem, alookup_upsert_self]
  | none =>
    have hseed := alookup_upsert_self standard
      (⟨standard, [standard]⟩ : Entry) d
    by_cases hmem : aName = standard
    · simp [h, hseed, hmem]
    · simp [h, hseed, hmem, alookup_upsert_self]

theorem addMappingMem_preserves_isSome (d : Dict) (idx : Index)
    (aName standard v : String) (h : (alookup v d).isSome) :
    (alookup v (addMappingMem d idx aName standard).1).isSome := by
  unfold addMappingMem
  cases hl : alookup standard d with
  | some e =>
    by_cases hmem : aName ∈ e.aliases
    · simp [hl, hmem, h]
    · simp only [hl]
      simp [hmem, alookup_isSome_upsert _ h]
  | none =>
    have hseed := alookup_upsert_self standard
      (⟨standard, [standard]⟩ : Entry) d
    have h1 : (alookup v
        (upsert standard (⟨standard, [standard]⟩ : Entry) d)).isSome :=
      alookup_isSome_upsert _ h
    by_cases hmem : aName = standard
    · simp [hl, hseed, hmem, h1]
    · simp [hl, hseed, hmem, alookup_isSome_upsert _ h1]

theorem addMappingMem_indexOK (d : Dict) (idx : Index)
    (aName standard : String) (h : IndexOK d idx) :
    IndexOK (addMappingMem d idx aName standard).1
      (addMappingMem d idx aName standard).2 := by
  intro p hp
  have hidx : (addMappingMem d idx aName standard).2 =
      upsert (pyLower aName) standard idx := rfl
  rw [hidx] at hp
  rcases mem_upsert hp with h' | h'
  · rw [h']
    exact addMappingMem_lookup_isSome d idx aName standard
  · exact addMappingMem_preserves_isSome d idx aName standard p.2 (h p h')

/-- C9: every mutation path preserves the invariant that each value in
the alias index is a key of the corresponding dictionary: index
construction, `add_company_mapping` (whether or not the save
succeeded), `update_companies`, and a successful
`rollback_to_backup`. -/
theorem C9_index_values_are_keys :
    (∀ d : Dict, IndexOK d (buildIndex d)) ∧
    (∀ (st : SState) (aName standard : String) (now : Nat),
      IndexOK st.companies st.index →
      IndexOK (addCompanyMappingOk st aName standard now).companies
        (addCompanyMappingOk st aName standard now).index) ∧
    (∀ (st : SState) (aName standard : String) (now : Nat) (pb : List Nat)
      (fp : FailStep), IndexOK st.companies st.index →
      IndexOK (addCompanyMappingFail st aName standard now pb fp).companies
        (addCompanyMappingFail st aName standard now pb fp).index) ∧
    (∀ (st : SState) (newD : Dict) (now : Nat),
      IndexOK (updateCompaniesOk st newD now).companies
        (updateCompaniesOk st newD now).index) ∧
    (∀ (st : SState) (ts : Nat) (st' : SState),
      rollbackToBackup st ts = .ok st' →
      IndexOK st'.companies st'.index) := by
  refine ⟨buildIndex_indexOK, ?_, ?_, ?_, ?_⟩
  · intro st aName standard now h
    exact addMappingMem_indexOK _ _ _ _ h
  · intro st aName standard now pb fp h
    exact addMappingMem_indexOK _ _ _ _ h
  · intro st newD now
    exact buildIndex_indexOK newD
  · intro st ts st' h
    unfold rollbackToBackup at h
    cases hb : alookup ts st.fs.backups with
    | none => rw [hb] at h; cases h
    | some c =>
      rw [hb] at h
      cases c with
      | truncated bs => cases h
      | json k d =>
        simp only [Except.ok.injEq] at h
        rw [← h]
        exact buildIndex_indexOK _

theorem C9_witness :
    IndexOK (addCompanyMappingOk ⟨[], [], [], fs0⟩ "G" "Google" 0).companies
      (addCompanyMappingOk ⟨[], [], [], fs0⟩ "G" "Google" 0).index :=
  C9_index_values_are_keys.2.1 ⟨[], [], [], fs0⟩ "G" "Google" 0
    (fun p hp => absurd hp (List.not_mem_nil p))

/-! ## Backup-pruning lemmas -/

theorem sortBackups_perm (l : List (Nat × FileData)) :
    List.Perm (sortBackups l) l :=
  List.perm_insertionSort _ l

theorem sortBackups_sorted (l : List (Nat × FileData)) :
    List.Sorted (fun a b => a.1 ≤ b.1) (sortBackups l) :=
  List.sorted_insertionSort _ l

theorem prune_subset {l : List (Nat × FileData)} {x : Nat × FileData}
    (hx : x ∈ pruneBackups l) : x ∈ l := by
  unfold pruneBackups at hx
  split_ifs at hx with h
  · exact (sortBackups_perm l).mem_iff.mp (List.mem_of_mem_drop hx)
  · exact hx

theorem prune_take_drop_le {l : List (Nat × FileData)} {x y : Nat × FileData}
    {k : Nat} (hx : x ∈ (sortBackups l).take k) (hy : y ∈ (sortBackups l).drop k) :
    x.1 ≤ y.1 := by
  have hp : List.Pairwise (fun a b : Nat × FileData => a.1 ≤ b.1)
      ((sortBackups l).take k ++ (sortBackups l).drop k) := by
    rw [List.take_append_drop]
    exact sortBackups_sorted l
  exact (List.pairwise_append.mp hp).2.2 x hx y hy

theorem mem_prune_of_max {l : List (Nat × FileData)} {x : Nat × FileData}
    (hx : x ∈ l) (hmax : ∀ y ∈ l, y ≠ x → y.1 < x.1) :
    x ∈ pruneBackups l := by
  unfold pruneBackups
  split_ifs with h
  · by_contra hnd
    have hxs : x ∈ sortBackups l := (sortBackups_perm l).mem_iff.mpr hx
    have hxtake : x ∈ (sortBackups l).take ((sortBackups l).length - MAX_BACKUPS) := by
      rcases List.mem_append.mp
          (by rw [List.take_append_drop]; exact hxs :
            x ∈ (sortBackups l).take ((sortBackups l).length - MAX_BACKUPS) ++
              (sortBackups l).drop ((sortBackups l).length - MAX_BACKUPS)) with h' | h'
      · exact h'
      · exact absurd h' hnd
    have hdropne :
        (sortBackups l).drop ((sortBackups l).length - MAX_BACKUPS) ≠ [] := by
      intro hemp
      have hlen := congrArg List.length hemp
      rw [List.length_drop] at hlen
      simp at hlen
      have hM : MAX_BACKUPS = 10 := rfl
      omega
    obtain ⟨y, hy⟩ := List.exists_mem_of_ne_nil _ hdropne
    have h1 : x.1 ≤ y.1 := prune_take_drop_le hxtake hy
    have hyl : y ∈ l :=
      (sortBackups_perm l).mem_iff.mp (List.mem_of_mem_drop hy)
    have hyx : y ≠ x := fun he => hnd (he ▸ hy)
    have h2 := hmax y hyl hyx
    omega
  · exact hx

theorem prune_dropped_le {l : List (Nat × FileData)} {x y : Nat × FileData}
    (hx : x ∈ l) (hnx : x ∉ pruneBackups l) (hy : y ∈ pruneBackups l) :
    x.1 ≤ y.1 := by
  unfold pruneBackups at hnx hy
  split_ifs at hnx hy with h
  · have hxs : x ∈ sortBackups l := (sortBackups_perm l).mem_iff.mpr hx
    have hxtake : x ∈ (sortBackups l).take ((sortBackups l).length - MAX_BACKUPS) := by
      rcases List.mem_append.mp
          (by rw [List.take_append_drop]; exact hxs :
            x ∈ (sortBackups l).take ((sortBackups l).length - MAX_BACKUPS) ++
              (sortBackups l).drop ((sortBackups l).length - MAX_BACKUPS)) with h' | h'
      · exact h'
      · exact absurd h' hnx
    exact prune_take_drop_le hxtake hy
  · exact absurd hx hnx

theorem pruneBackups_length_of_gt {l : List (Nat × FileData)}
    (h : MAX_BACKUPS < l.length) : (pruneBackups l).length = MAX_BACKUPS := by
  have hs : (sortBackups l).length = l.length := (sortBackups_perm l).length_eq
  unfold pruneBackups
  rw [if_pos (by omega), List.length_drop]
  omega

theorem pruneBackups_of_le {l : List (Nat × FileData)}
    (h : l.length ≤ MAX_BACKUPS) : pruneBackups l = l := by
  have hs : (sortBackups l).length = l.length := (sortBackups_perm l).length_eq
  unfold pruneBackups
  rw [if_neg (by omega)]

theorem alookup_prune_max {bs : List (Nat × FileData)} {now : Nat}
    {c : FileData} (hts : ∀ p ∈ bs, p.1 < now) :
    alookup now (pruneBackups (bs ++ [(now, c)])) = some c := by
  have hmem : (now, c) ∈ bs ++ [(now, c)] := by simp
  have hmax : ∀ y ∈ bs ++ [(now, c)], y ≠ (now, c) → y.1 < now := by
    intro y hy hne
    rcases List.mem_append.mp hy with h | h
    · exact hts y h
    · simp only [List.mem_singleton] at h
      exact absurd h hne
  refine alookup_of_mem_unique (mem_prune_of_max hmem hmax) ?_
  intro v hv
  have hv' := prune_subset hv
  by_contra hne
  have hvne : ((now, v) : Nat × FileData) ≠ (now, c) := by
    intro he
    exact hne (congrArg Prod.snd he)
  have := hmax _ hv' hvne
  omega

/-! ## C1 and C4: persistence -/

theorem saveDictFail_target (σ0 : FSState) (key : String) (d : Dict)
    (now : Nat) (pb : List Nat) (fp : FailStep) (c : FileData)
    (hc : σ0.target = some c) (hts : ∀ p ∈ σ0.backups, p.1 < now) :
    (saveDictFail σ0 key d now pb fp).target = some c := by
  obtain ⟨t, tm, bk, ce⟩ := σ0
  dsimp only at hc hts
  subst hc
  have happ : upsert now c bk = bk ++ [(now, c)] :=
    upsert_eq_append _ _ _ fun p hp => Nat.ne_of_lt (hts p hp)
  have hkey : alookup now (pruneBackups (bk ++ [(now, c)])) = some c :=
    alookup_prune_max hts
  cases fp <;>
    · simp only [saveDictFail, mkBackupStep, pruneStep]
      rw [happ, hkey]

theorem addMappingMem_alias_mem (d : Dict) (idx : Index)
    (aName standard : String) :
    ∃ e, alookup standard (addMappingMem d idx aName standard).1 = some e ∧
      aName ∈ e.aliases := by
  unfold addMappingMem
  cases h : alookup standard d with
  | some e =>
    by_cases hmem : aName ∈ e.aliases
    · exact ⟨e, by simp [h, hmem], hmem⟩
    · exact ⟨⟨e.std, e.aliases ++ [aName]⟩,
        by simp [h, hmem, alookup_upsert_self], by simp⟩
  | none =>
    have hseed := alookup_upsert_self standard
      (⟨standard, [standard]⟩ : Entry) d
    by_cases hmem : aName = standard
    · exact ⟨⟨standard, [standard]⟩, by simp [h, hseed, hmem],
        by simp [hmem]⟩
    · exact ⟨⟨standard, [standard, aName]⟩,
        by simp [h, hseed, hmem, alookup_upsert_self], by simp⟩

/-- C4: when persistence fails during a mutation — either
`add_company_mapping` or `update_companies` (the spec's
`replaceDictionary`) — the pre-write backup is copied back over the
on-disk target, the error is re-raised to the caller, and the
in-memory dictionary and alias index are not rolled back: they keep
the mutation, diverging from the on-disk copy. -/
theorem C4_failed_save_divergence (st : SState) (aName standard : String)
    (now : Nat) (pb : List Nat) (fp : FailStep) (c : FileData)
    (hc : st.fs.target = some c)
    (hts : ∀ p ∈ st.fs.backups, p.1 < now) :
    addCompanyMapping st aName standard now pb (some fp) =
      .error (addCompanyMappingFail st aName standard now pb fp) ∧
    (addCompanyMappingFail st aName standard now pb fp).fs.target = some c ∧
    (∃ e, alookup standard
        (addCompanyMappingFail st aName standard now pb fp).companies =
        some e ∧ aName ∈ e.aliases) ∧
    alookup (pyLower aName)
      (addCompanyMappingFail st aName standard now pb fp).index =
      some standard ∧
    (∀ newD : Dict,
      updateCompanies st newD now pb (some fp) =
        .error (updateCompaniesFail st newD now pb fp) ∧
      (updateCompaniesFail st newD now pb fp).fs.target = some c ∧
      (updateCompaniesFail st newD now pb fp).companies = newD ∧
      (updateCompaniesFail st newD now pb fp).index = buildIndex newD) := by
  refine ⟨rfl, ?_, ?_, ?_, ?_⟩
  · exact saveDictFail_target _ _ _ _ _ _ _ hc hts
  · exact addMappingMem_alias_mem st.companies st.index aName standard
  · exact alookup_upsert_self (pyLower aName) standard st.index
  · intro newD
    exact ⟨rfl, saveDictFail_target _ _ _ _ _ _ _ hc hts, rfl, rfl⟩

theorem C4_witness :
    (addCompanyMappingFail
      ⟨[], [], [], ⟨some (.json "companies" []), none, [], false⟩⟩
      "G" "Google" 1 [] .writeTemp).fs.target =
      some (.json "companies" []) ∧
    (updateCompaniesFail
      ⟨[], [], [], ⟨some (.json "companies" []), none, [], false⟩⟩
      [("X", ⟨"X", []⟩)] 1 [] .writeTemp).fs.target =
      some (.json "companies" []) :=
  ⟨(C4_failed_save_divergence
      ⟨[], [], [], ⟨some (.json "companies" []), none, [], false⟩⟩
      "G" "Google" 1 [] .writeTemp (.json "companies" []) rfl
      (by decide)).2.1,
   ((C4_failed_save_divergence
      ⟨[], [], [], ⟨some (.json "companies" []), none, [], false⟩⟩
      "G" "Google" 1 [] .writeTemp (.json "companies" []) rfl
      (by decide)).2.2.2.2 [("X", ⟨"X", []⟩)]).2.1⟩

/-- C1: a successful `_save_dictionary` on an existing target first
copies it to a timestamped backup, then prunes that file's backups to
the most recent ten (deleting oldest first), then writes the new
serialization to a temporary file and atomically renames it over the
target: every intermediate state of the trace shows the target holding
either the complete old contents or the complete new serialization
(never the partial bytes), and the final state holds the new one. -/
theorem C1_save_atomic_backup_prune (σ0 : FSState) (key : String) (d : Dict)
    (now : Nat) (pb : List Nat) (c : FileData)
    (hc : σ0.target = some c)
    (hts : ∀ p ∈ σ0.backups, p.1 < now) :
    (∀ σ ∈ saveTrace σ0 key d now pb,
      σ.target = some c ∨ σ.target = some (.json key d)) ∧
    (saveDict σ0 key d now).target = some (.json key d) ∧
    (mkBackupStep now σ0).backups = σ0.backups ++ [(now, c)] ∧
    (saveDict σ0 key d now).backups =
      pruneBackups (σ0.backups ++ [(now, c)]) ∧
    (10 < (σ0.backups ++ [(now, c)]).length →
      (saveDict σ0 key d now).backups.length = 10) ∧
    ((σ0.backups ++ [(now, c)]).length ≤ 10 →
      (saveDict σ0 key d now).backups = σ0.backups ++ [(now, c)]) ∧
    (∀ x ∈ σ0.backups ++ [(now, c)],
      x ∉ (saveDict σ0 key d now).backups →
      ∀ y ∈ (saveDict σ0 key d now).backups, x.1 ≤ y.1) := by
  obtain ⟨t, tm, bk, ce⟩ := σ0
  dsimp only at hc hts
  subst hc
  have happ : upsert now c bk = bk ++ [(now, c)] :=
    upsert_eq_append _ _ _ fun p hp => Nat.ne_of_lt (hts p hp)
  have hbackups : (saveDict ⟨some c, tm, bk, ce⟩ key d now).backups =
      pruneBackups (bk ++ [(now, c)]) := by
    show pruneBackups (upsert now c bk) = pruneBackups (bk ++ [(now, c)])
    rw [happ]
  refine ⟨?_, rfl, ?_, hbackups, ?_, ?_, ?_⟩
  · intro σ hσ
    simp only [saveTrace, List.mem_cons, List.not_mem_nil, or_false] at hσ
    rcases hσ with h | h | h | h | h | h | h <;> subst h <;>
      simp [mkBackupStep, pruneStep]
  · show upsert now c bk = bk ++ [(now, c)]
    exact happ
  · intro h
    rw [hbackups, pruneBackups_length_of_gt h]
    rfl
  · intro h
    rw [hbackups, pruneBackups_of_le h]
  · intro x hx hnx y hy
    rw [hbackups] at hnx hy
    exact prune_dropped_le hx hnx hy

theorem C1_witness :
    (saveDict ⟨some (.json "companies" [("Old", ⟨"Old", []⟩)]), none, [], false⟩
      "companies" [] 1).target = some (.json "companies" []) :=
  (C1_save_atomic_backup_prune
    ⟨some (.json "companies" [("Old", ⟨"Old", []⟩)]), none, [], false⟩
    "companies" [] 1 [] (.json "companies" [("Old", ⟨"Old", []⟩)]) rfl
    (by decide)).2.1

/-! ## C10: search -/

theorem searchAliasLoop_length (ql s : String) (e : Entry) (limit : Nat)
    (as : List String) (res : List (String × Entry))
    (h : res.length < limit) :
    (searchAliasLoop ql s e limit as res).length ≤ limit := by
  induction as generalizing res with
  | nil => exact Nat.le_of_lt h
  | cons a rest ih =>
    unfold searchAliasLoop
    by_cases hm : strContains (pyLower a) ql
    · rw [if_pos hm]
      by_cases hl : limit ≤ (res ++ [(s, e)]).length
      · rw [if_pos hl]
        simp only [List.length_append, List.length_singleton]
        omega
      · rw [if_neg hl]
        exact ih _ (by omega)
    · rw [if_neg hm]
      exact ih _ h

theorem searchLoop_length (ql : String) (limit : Nat) (l : Dict)
    (res : List (String × Entry)) (h : res.length < limit) :
    (searchLoop ql limit l res).length ≤ limit := by
  induction l generalizing res with
  | nil => exact Nat.le_of_lt h
  | cons se rest ih =>
    obtain ⟨s, e⟩ := se
    unfold searchLoop
    by_cases hm : strContains (pyLower s) ql
    · rw [if_pos hm]
      by_cases hl : limit ≤ (res ++ [(s, e)]).length
      · rw [if_pos hl]
        simp only [List.length_append, List.length_singleton]
        omega
      · rw [if_neg hl]
        exact ih _ (by omega)
    · rw [if_neg hm]
      by_cases hl : limit ≤ (searchAliasLoop ql s e limit e.aliases res).length
      · rw [if_pos hl]
        exact searchAliasLoop_length ql s e limit e.aliases res h
      · rw [if_neg hl]
        exact ih _ (by omega)

theorem searchAliasLoop_eq (ql s : String) (e : Entry) (limit : Nat)
    (as : List String) (res : List (String × Entry))
    (h : res.length +
      ((as.filter (fun a => strContains (pyLower a) ql)).map
        (fun _ => (s, e))).length ≤ limit) :
    searchAliasLoop ql s e limit as res =
      res ++ (as.filter (fun a => strContains (pyLower a) ql)).map
        (fun _ => (s, e)) := by
  induction as generalizing res with
  | nil => simp [searchAliasLoop]
  | cons a rest ih =>
    unfold searchAliasLoop
    by_cases hm : strContains (pyLower a) ql
    · rw [if_pos hm]
      simp only [List.filter_cons, hm, if_pos, List.map_cons,
        List.length_cons, List.length_map] at h ⊢
      by_cases hl : limit ≤ (res ++ [(s, e)]).length
      · rw [if_pos hl]
        simp only [List.length_append, List.length_singleton] at hl
        have hz : (rest.filter (fun a => strContains (pyLower a) ql)).length
            = 0 := by omega
        rw [List.length_eq_zero.mp hz]
        simp
      · rw [if_neg hl]
        rw [ih _ (by simpa [List.length_map] using (by
          simp only [List.length_append, List.length_singleton]
          omega : (res ++ [(s, e)]).length +
            (rest.filter (fun a => strContains (pyLower a) ql)).length ≤
            limit))]
        simp
    · rw [if_neg hm]
      simp only [List.filter_cons, hm] at h ⊢
      exact ih _ (by simpa using h)

theorem searchMatches_nil (ql : String) : searchMatches ql [] = [] := rfl

theorem searchMatches_cons (ql : String) (s : String) (e : Entry) (rest : Dict) :
    searchMatches ql ((s, e) :: rest) =
      (if strContains (pyLower s) ql then [(s, e)]
       else (e.aliases.filter (fun a => strContains (pyLower a) ql)).map
         (fun _ => (s, e))) ++ searchMatches ql rest := by
  simp [searchMatches]

theorem searchLoop_eq (ql : String) (limit : Nat) (l : Dict)
    (res : List (String × Entry))
    (h : res.length + (searchMatches ql l).length ≤ limit) :
    searchLoop ql limit l res = res ++ searchMatches ql l := by
  induction l generalizing res with
  | nil => simp [searchLoop, searchMatches_nil]
  | cons se rest ih =>
    obtain ⟨s, e⟩ := se
    rw [searchMatches_cons] at h ⊢
    unfold searchLoop
    by_cases hm : strContains (pyLower s) ql
    · rw [if_pos hm] at h ⊢
      simp only [List.length_append, List.length_singleton] at h
      by_cases hl : limit ≤ (res ++ [(s, e)]).length
      · rw [if_pos hl]
        simp only [List.length_append, List.length_singleton] at hl
        have hz : (searchMatches ql rest).length = 0 := by omega
        rw [List.length_eq_zero.mp hz]
        simp [hm]
      · rw [if_neg hl]
        rw [ih _ (by
          simp only [List.length_append, List.length_singleton]
          omega)]
        simp [hm]
    · rw [if_neg hm] at h ⊢
      have hinner : searchAliasLoop ql s e limit e.aliases res =
          res ++ (e.aliases.filter (fun a => strContains (pyLower a) ql)).map
            (fun _ => (s, e)) := by
        apply searchAliasLoop_eq
        simp only [List.length_append] at h
        omega
      rw [hinner]
      by_cases hl : limit ≤
          (res ++ (e.aliases.filter (fun a => strContains (pyLower a) ql)).map
            (fun _ => (s, e))).length
      · rw [if_pos hl]
        simp only [List.length_append] at hl h
        have hz : (searchMatches ql rest).length = 0 := by omega
        rw [List.length_eq_zero.mp hz]
        simp [hm]
      · rw [if_neg hl]
        rw [ih _ (by
          simp only [List.length_append] at h ⊢
          omega)]
        simp [hm]

/-- C10 counterexample: with `limit = 0` and a matching entry the
result has one element, so the returned list's length exceeds the
limit: the claim's parenthetical bound fails at `limit = 0` (the loop
appends before checking the bound). -/
theorem C10_counterexample :
    searchCompanies [("Foo", ⟨"Foo", ["AC corp", "ac inc"]⟩)] "AC" 0 =
      [("Foo", ⟨"Foo", ["AC corp", "ac inc"]⟩)] ∧
    ¬ (searchCompanies [("Foo", ⟨"Foo", ["AC corp", "ac inc"]⟩)] "AC" 0).length
        ≤ 0 := by
  decide

/-- C10 as amended: for `limit ≥ 1` the result length never exceeds
`limit`; as long as the scan stays within `limit` the result is
exactly the untruncated hit list (one hit for a standard-name match,
otherwise one hit per matching alias); in particular an entry whose
standard does not contain the query but whose alias list has k
matching aliases appears k times, so the result can contain
duplicates. -/
theorem C10_search_duplicates (d : Dict) (q : String) (limit : Nat) :
    (1 ≤ limit → (searchCompanies d q limit).length ≤ limit) ∧
    ((searchMatches (pyLower q) d).length ≤ limit →
      searchCompanies d q limit = searchMatches (pyLower q) d) ∧
    (∀ s e, (s, e) ∈ d → strContains (pyLower s) (pyLower q) = false →
      (searchMatches (pyLower q) d).length ≤ limit →
      (e.aliases.filter (fun a => strContains (pyLower a) (pyLower q))).length
        ≤ (searchCompanies d q limit).count (s, e)) := by
  refine ⟨?_, ?_, ?_⟩
  · intro h
    exact searchLoop_length _ _ _ _ (by simpa using h)
  · intro h
    have := searchLoop_eq (pyLower q) limit d [] (by simpa using h)
    simpa [searchCompanies] using this
  · intro s e hmem hns h
    have heq : searchCompanies d q limit = searchMatches (pyLower q) d := by
      have := searchLoop_eq (pyLower q) limit d [] (by simpa using h)
      simpa [searchCompanies] using this
    rw [heq]
    obtain ⟨l1, l2, rfl⟩ := List.append_of_mem hmem
    have hsplit : searchMatches (pyLower q) (l1 ++ (s, e) :: l2) =
        searchMatches (pyLower q) l1 ++
        ((e.aliases.filter (fun a => strContains (pyLower a) (pyLower q))).map
          (fun _ => (s, e)) ++ searchMatches (pyLower q) l2) := by
      unfold searchMatches
      simp only [List.map_append, List.flatten_append, List.map_cons,
        List.flatten_cons, hns, Bool.false_eq_true, if_false]
    rw [hsplit, List.count_append, List.count_append]
    have hcnt : ((e.aliases.filter
        (fun a => strContains (pyLower a) (pyLower q))).map
          (fun _ => (s, e))).count (s, e) =
        (e.aliases.filter
          (fun a => strContains (pyLower a) (pyLower q))).length := by
      generalize e.aliases.filter (fun a => strContains (pyLower a) (pyLower q)) = xs
      induction xs with
      | nil => rfl
      | cons x rest ih => simp [List.count_cons, ih]
    omega

theorem C10_witness :
    2 ≤ (searchCompanies [("Foo", ⟨"Foo", ["AC corp", "ac inc"]⟩)] "AC"
      10).count ("Foo", ⟨"Foo", ["AC corp", "ac inc"]⟩) :=
  le_trans (by decide)
    ((C10_search_duplicates [("Foo", ⟨"Foo", ["AC corp", "ac inc"]⟩)] "AC"
      10).2.2 "Foo" ⟨"Foo", ["AC corp", "ac inc"]⟩ (by decide) (by decide)
      (by decide))

/-! ## C8: validator -/

theorem lastClaimant_cons (key s' a' : String)
    (rest : List (String × String)) :
    lastClaimant key ((s', a') :: rest) =
      match lastClaimant key rest with
      | some r => some r
      | none => if pyLower a' = key then some s' else none := rfl

theorem lastClaimant_snoc (key : String) (pre : List (String × String))
    (s a : String) :
    lastClaimant key (pre ++ [(s, a)]) =
      if pyLower a = key then some s else lastClaimant key pre := by
  induction pre with
  | nil => simp [lastClaimant]
  | cons p rest ih =>
    obtain ⟨s', a'⟩ := p
    rw [List.cons_append, lastClaimant_cons, lastClaimant_cons, ih]
    by_cases h : pyLower a = key
    · simp [h]
    · simp [h]

theorem dupSpec_cons (kind : String) (pre : List (String × String))
    (s a : String) (rest : List (String × String)) :
    dupSpec kind pre ((s, a) :: rest) =
      (match lastClaimant (pyLower a) pre with
       | some prev => [Finding.dupAlias kind a prev s]
       | none => []) ++ dupSpec kind (pre ++ [(s, a)]) rest := rfl

theorem dupSpec_append (kind : String) (pre xs ys : List (String × String)) :
    dupSpec kind pre (xs ++ ys) =
      dupSpec kind pre xs ++ dupSpec kind (pre ++ xs) ys := by
  induction xs generalizing pre with
  | nil => simp [dupSpec]
  | cons x rest ih =>
    obtain ⟨s, a⟩ := x
    rw [List.cons_append, dupSpec_cons, dupSpec_cons, ih,
      List.append_cons pre (s, a) rest]
    exact (List.append_assoc _ _ _).symm

theorem blankCheck_dup (kind : String) (iss : Issues) (s : String) :
    (blankCheck kind iss s).duplicate_aliases = iss.duplicate_aliases := by
  unfold blankCheck
  split <;> rfl

theorem aliasCheck_dup (kind : String) (iss : Issues) (s : String) (e : Entry) :
    (aliasCheck kind iss s e).duplicate_aliases = iss.duplicate_aliases := by
  unfold aliasCheck
  split <;> rfl

theorem suspCheck_dup (kind : String) (iss : Issues) (s : String) :
    (suspCheck kind iss s).duplicate_aliases = iss.duplicate_aliases := by
  unfold suspCheck
  split <;> rfl

theorem foldl_dupStep (kind s : String) (as : List String) (iss : Issues)
    (seen pre : List (String × String))
    (hinv : ∀ key, alookup key seen = lastClaimant key pre) :
    (as.foldl (dupStep kind s) (iss, seen)).1.duplicate_aliases =
      iss.duplicate_aliases ++
        dupSpec kind pre (as.map (fun a => (s, a))) ∧
    (∀ key, alookup key (as.foldl (dupStep kind s) (iss, seen)).2 =
      lastClaimant key (pre ++ as.map (fun a => (s, a)))) := by
  induction as generalizing iss seen pre with
  | nil =>
    refine ⟨by simp [dupSpec], fun key => by simpa using hinv key⟩
  | cons a rest ih =>
    have hinv' : ∀ key, alookup key (upsert (pyLower a) s seen) =
        lastClaimant key (pre ++ [(s, a)]) := by
      intro key
      rw [lastClaimant_snoc]
      by_cases h : pyLower a = key
      · subst h
        rw [if_pos rfl]
        exact alookup_upsert_self _ _ _
      · rw [if_neg h, alookup_upsert_ne _ _ fun hk => h hk.symm]
        exact hinv key
    simp only [List.foldl_cons, List.map_cons]
    cases hma : alookup (pyLower a) seen with
    | some prev =>
      have hstep : dupStep kind s (iss, seen) a =
          ({ iss with duplicate_aliases :=
              iss.duplicate_aliases ++ [.dupAlias kind a prev s] },
            upsert (pyLower a) s seen) := by
        simp [dupStep, hma]
      rw [hstep]
      obtain ⟨ih1, ih2⟩ := ih
        { iss with duplicate_aliases :=
            iss.duplicate_aliases ++ [.dupAlias kind a prev s] }
        (upsert (pyLower a) s seen) (pre ++ [(s, a)]) hinv'
      refine ⟨?_, ?_⟩
      · rw [ih1]
        have hlc : lastClaimant (pyLower a) pre = some prev := by
          rw [← hinv (pyLower a)]
          exact hma
        simp [dupSpec, hlc, List.append_assoc]
      · intro key
        rw [ih2 key]
        simp [List.append_assoc]
    | none =>
      have hstep : dupStep kind s (iss, seen) a =
          (iss, upsert (pyLower a) s seen) := by
        simp [dupStep, hma]
      rw [hstep]
      obtain ⟨ih1, ih2⟩ := ih iss (upsert (pyLower a) s seen)
        (pre ++ [(s, a)]) hinv'
      refine ⟨?_, ?_⟩
      · rw [ih1]
        have hlc : lastClaimant (pyLower a) pre = none := by
          rw [← hinv (pyLower a)]
          exact hma
        simp [dupSpec, hlc, List.append_assoc]
      · intro key
        rw [ih2 key]
        simp [List.append_assoc]

theorem scanEntry_dup (kind : String) (iss : Issues)
    (seen pre : List (String × String)) (s : String) (e : Entry)
    (hinv : ∀ key, alookup key seen = lastClaimant key pre) :
    (scanEntry kind iss seen s e).1.duplicate_aliases =
      iss.duplicate_aliases ++
        dupSpec kind pre (e.aliases.map (fun a => (s, a))) ∧
    (∀ key, alookup key (scanEntry kind iss seen s e).2 =
      lastClaimant key (pre ++ e.aliases.map (fun a => (s, a)))) := by
  obtain ⟨h1, h2⟩ := foldl_dupStep kind s e.aliases
    (aliasCheck kind (blankCheck kind iss s) s e) seen pre hinv
  constructor
  · show (suspCheck kind _ s).duplicate_aliases = _
    rw [suspCheck_dup, h1, aliasCheck_dup, blankCheck_dup]
  · exact h2

theorem occList_cons (s : String) (e : Entry) (rest : Dict) :
    occList ((s, e) :: rest) =
      e.aliases.map (fun a => (s, a)) ++ occList rest := by
  simp [occList]

theorem scanDict_dup_aux (kind : String) (l : Dict) (iss : Issues)
    (seen pre : List (String × String))
    (hinv : ∀ key, alookup key seen = lastClaimant key pre) :
    (l.foldl (fun p se => scanEntry kind p.1 p.2 se.1 se.2)
      (iss, seen)).1.duplicate_aliases =
      iss.duplicate_aliases ++ dupSpec kind pre (occList l) := by
  induction l generalizing iss seen pre with
  | nil => simp [occList, dupSpec]
  | cons se rest ih =>
    obtain ⟨s, e⟩ := se
    obtain ⟨h1, h2⟩ := scanEntry_dup kind iss seen pre s e hinv
    simp only [List.foldl_cons]
    rw [ih (scanEntry kind iss seen s e).1 (scanEntry kind iss seen s e).2
      (pre ++ e.aliases.map (fun a => (s, a))) h2, h1, occList_cons,
      dupSpec_append, List.append_assoc]

theorem scanDict_dup (kind : String) (iss0 : Issues) (d : Dict) :
    (scanDict kind iss0 d).duplicate_aliases =
      iss0.duplicate_aliases ++ dupSpec kind [] (occList d) :=
  scanDict_dup_aux kind d iss0 [] [] fun _ => rfl

/-- C8 counterexample: three standards `A`, `B`, `C` all claim alias
`"x"`.  The collision at `C` is reported against `B` (the most
recently seen claimant), not against the first-seen owner `A`: no
finding pairing `A` with `C` exists in the output. -/
theorem C8_counterexample :
    alookup "duplicate_aliases"
      (validateDictionary
        [("A", ⟨"A", ["x"]⟩), ("B", ⟨"B", ["x"]⟩), ("C", ⟨"C", ["x"]⟩)] []) =
      some [.dupAlias "company" "x" "A" "B",
        .dupAlias "company" "x" "B" "C"] ∧
    Finding.dupAlias "company" "x" "A" "C" ∉
      [Finding.dupAlias "company" "x" "A" "B",
        Finding.dupAlias "company" "x" "B" "C"] := by
  decide

/-- C8 as amended: `validate_dictionary` omits empty categories, and
scans companies then universities with a separate seen-alias map per
dictionary; within a dictionary every later occurrence of an
already-claimed alias (case-insensitive) yields one
`duplicate_aliases` finding attributed to the most recently seen
previous claimant of that alias (which is the first-seen owner only
when exactly two claim it). -/
theorem C8_validate_findings (companies universities : Dict) :
    (∀ kv ∈ validateDictionary companies universities, kv.2 ≠ []) ∧
    (scanDict "university" (scanDict "company" issuesInit companies)
      universities).duplicate_aliases =
      dupSpec "company" [] (occList companies) ++
        dupSpec "university" [] (occList universities) := by
  constructor
  · intro kv hkv
    have h := (List.mem_filter.mp hkv).2
    simpa using h
  · rw [scanDict_dup, scanDict_dup]
    simp [issuesInit]

theorem C8_witness :
    (("duplicate_aliases",
      [Finding.dupAlias "company" "x" "A" "B"]) : String × List Finding).2 ≠
      [] :=
  (C8_validate_findings [("A", ⟨"A", ["x"]⟩), ("B", ⟨"B", ["x"]⟩)] []).1 _
    (by decide)

end DictSvc
